import Mathlib

/-!
Verification of the MCTS node core of the Allie chess engine
(`src/lib/node.cpp`) against its natural-language specification.

The node state and the operations on it are shallowly embedded: the C++
float fields become `ℚ`, visit counters become `ℕ`, the tree's parent
chain becomes an explicit list of ancestor nodes, and the external `Game`
and tablebase collaborators become an explicit environment record.
Quantities defined in `node.h` (which is not part of the excerpt) are
modelled from the spec where needed and documented at their definition.
-/

namespace Allie

/-- Result of a tablebase probe (`TB::Probe` in `tb.h`). -/
inductive Probe where
  | NotFound
  | Win
  | Loss
  | Draw
deriving DecidableEq, Repr

/-- A not-yet-materialized child move (`PotentialNode`): the move (opaque
rendering) and its prior probability. -/
structure PotentialNode where
  move : String
  pValue : ℚ
deriving DecidableEq, Repr, Inhabited

/-- The per-node state of `Node` as initialised by the constructor
(`node.cpp` lines 40-54) and mutated by the operations below.  The
`checkMate`/`staleMate` flags live on `m_game` in the C++ but are carried
here since `generatePotentials` sets them.  `potentials` is the node's
`m_potentials` vector. -/
structure Node where
  visited : ℕ
  virtualLoss : ℤ
  qValue : ℚ
  rawQValue : ℚ
  pValue : ℚ
  policySum : ℚ
  uCoeff : ℚ
  isExact : Bool
  isTB : Bool
  checkMate : Bool
  staleMate : Bool
  lastMove : String
  potentials : List PotentialNode
deriving DecidableEq, Repr, Inhabited

/-- The constructor `Node::Node` (lines 40-54): counters zero, value
fields at the `-2.0f` "unset" sentinel, flags clear. -/
def Node.init : Node :=
  { visited := 0
    virtualLoss := 0
    qValue := -2
    rawQValue := -2
    pValue := -2
    policySum := 0
    uCoeff := -2
    isExact := false
    isTB := false
    checkMate := false
    staleMate := false
    lastMove := ""
    potentials := [] }

/-- `hasQValue` (declared in `node.h`, not in the excerpt).  Modelled from
the spec: `qValue` holds the `-2.0f` sentinel "unset" before the first
visit (§3), so the predicate is `qValue ≠ -2`. -/
def Node.hasQValue (n : Node) : Prop := n.qValue ≠ -2

/-- `hasRawQValue` (declared in `node.h`).  Modelled from the spec:
`rawQValue` holds the `-2.0f` sentinel before scoring (§3). -/
def Node.hasRawQValue (n : Node) : Prop := n.rawQValue ≠ -2

/-- `hasPValue` (declared in `node.h`).  Modelled from the spec: `pValue`
holds the `-2.0f` sentinel before a prior is assigned (§3). -/
def Node.hasPValue (n : Node) : Prop := n.pValue ≠ -2

instance (n : Node) : Decidable n.hasQValue := by
  unfold Node.hasQValue; infer_instance

instance (n : Node) : Decidable n.hasRawQValue := by
  unfold Node.hasRawQValue; infer_instance

instance (n : Node) : Decidable n.hasPValue := by
  unfold Node.hasPValue; infer_instance

/-- `qFuzzyCompare(float, float)` from Qt, as used by
`virtualLossDistance`: `qAbs(p1 - p2) * 100000.f <= qMin(qAbs(p1), qAbs(p2))`. -/
def qFuzzyCompareF (p1 p2 : ℚ) : Bool :=
  decide (|p1 - p2| * 100000 ≤ min |p1| |p2|)

/-- `virtualLossDistance(wec, a, b)` (lines 310-329): `q`, `p`, `uCoeff`
are the second candidate `b`'s values, `wec` the best's weighted
exploration score, `vldMax` the configured `SearchSettings::vldMax`.
Note the code computes `nf = -(q + p*uCoeff - wec) / (wec - q)` — the
*negation* of the formula in its own comment — and applies no upper
clamp. -/
def virtualLossDistance (vldMax : ℤ) (wec q p uCoeff : ℚ) : ℤ :=
  if qFuzzyCompareF (wec - q) 0 then 1
  else if wec < q then vldMax
  else max 1 ⌈-(q + p * uCoeff - wec) / (wec - q)⌉

/-- The claimed behaviour of `virtualLossDistance`, following the spec's
words (§4.3 step 4): `n_fx = (q + p·uCoeff - wec) / (wec - q)`, rounded
up and clamped to `[1, vldMax]`; `vldMax` when `q ≥ wec`; `1` on a
near-zero denominator. -/
def virtualLossDistanceSpec (vldMax : ℤ) (wec q p uCoeff : ℚ) : ℤ :=
  if wec - q = 0 then 1
  else if wec ≤ q then vldMax
  else min vldMax (max 1 ⌈(q + p * uCoeff - wec) / (wec - q)⌉)

/-- **C1.** `virtualLossDistance` does not compute the claimed (and
self-documented) formula: at `wec = 1/1000`, `q = 0`, `p = 1`,
`uCoeff = 2`, `vldMax = 800` the comment's formula gives
`⌈1999⌉ = 1999`, clamped to `800`, but the code negates the numerator
(yielding `-1999`) and returns `max 1 ⌈-1999⌉ = 1`; it also never clamps
from above. -/
theorem virtualLossDistance_negates_documented_formula :
    virtualLossDistance 800 (1/1000) 0 1 2 = 1 ∧
    virtualLossDistanceSpec 800 (1/1000) 0 1 2 = 800 := by
  constructor
  · show (if qFuzzyCompareF ((1:ℚ)/1000 - 0) 0 then (1:ℤ)
      else if (1:ℚ)/1000 < 0 then 800
      else max 1 ⌈-((0:ℚ) + 1 * 2 - 1/1000) / (1/1000 - 0)⌉) = 1
    have hf : qFuzzyCompareF ((1:ℚ)/1000 - 0) 0 = false := by
      unfold qFuzzyCompareF
      norm_num
    have hv : (-((0:ℚ) + 1 * 2 - 1/1000) / (1/1000 - 0)) = ((-1999 : ℤ) : ℚ) := by
      norm_num
    rw [hf, if_neg (by norm_num), if_neg (by norm_num), hv, Int.ceil_intCast]
    norm_num
  · show (if (1:ℚ)/1000 - 0 = 0 then (1:ℤ)
      else if (1:ℚ)/1000 ≤ 0 then 800
      else min 800 (max 1 ⌈((0:ℚ) + 1 * 2 - 1/1000) / (1/1000 - 0)⌉)) = 800
    have hv : (((0:ℚ) + 1 * 2 - 1/1000) / (1/1000 - 0)) = ((1999 : ℤ) : ℚ) := by
      norm_num
    rw [if_neg (by norm_num), if_neg (by norm_num), hv, Int.ceil_intCast]
    norm_num

/-- `Node::incrementVisited` (lines 446-451): invalidate the cached
`uCoeff` (back to the `-2.0f` sentinel), clear `virtualLoss`, bump
`visited`. -/
def Node.incrementVisited (n : Node) : Node :=
  { n with uCoeff := -2, virtualLoss := 0, visited := n.visited + 1 }

/-- `Node::setQValueFromRaw` (lines 164-168): copy `rawQValue` into
`qValue`. -/
def Node.setQValueFromRaw (n : Node) : Node :=
  { n with qValue := n.rawQValue }

/-- `Node::backPropagateValue(v)` (lines 178-189): running-mean update of
`qValue` followed by `incrementVisited`. -/
def Node.backPropagateValue (v : ℚ) (n : Node) : Node :=
  Node.incrementVisited
    { n with qValue := ((n.visited : ℚ) * n.qValue + v) / ((n.visited : ℚ) + 1) }

/-- The parent-chain walk of `Node::backPropagateValueFull` (lines
191-200), acting on the explicit ancestor list (parent first, root
last): the value is negated before each ancestor's update. -/
def backPropagateList (v : ℚ) : List Node → List Node
  | [] => []
  | a :: as => a.backPropagateValue (-v) :: backPropagateList (-v) as

/-- The `policySum` bookkeeping at the head of
`Node::setQValueAndPropagate` (lines 205-206): if the node has a parent
and was never visited, the parent gains the node's prior. -/
def policyAdjust (n : Node) : List Node → List Node
  | [] => []
  | p :: rest =>
    (if n.visited = 0 then { p with policySum := p.policySum + n.pValue } else p) :: rest

/-- `Node::setQValueAndPropagate` (lines 202-214) on a node and its
ancestor chain: parent `policySum` bookkeeping, `incrementVisited`,
`setQValueFromRaw`, then `backPropagateValueFull` starting from the
node's fresh `qValue`. -/
def setQValueAndPropagate (n : Node) (as : List Node) : Node × List Node :=
  let n' := n.incrementVisited.setQValueFromRaw
  (n', backPropagateList n'.qValue (policyAdjust n as))

theorem backPropagateList_length (v : ℚ) (as : List Node) :
    (backPropagateList v as).length = as.length := by
  induction as generalizing v with
  | nil => rfl
  | cons a as ih => simp [backPropagateList, ih]

theorem backPropagateList_get (v : ℚ) (as : List Node) (i : ℕ)
    (h : i < as.length) (h2 : i < (backPropagateList v as).length) :
    (backPropagateList v as).get ⟨i, h2⟩
      = (as.get ⟨i, h⟩).backPropagateValue ((-1) ^ (i + 1) * v) := by
  induction as generalizing v i with
  | nil => exact absurd h (Nat.not_lt_zero i)
  | cons a as ih =>
    cases i with
    | zero =>
      show a.backPropagateValue (-v) = a.backPropagateValue ((-1) ^ (0 + 1) * v)
      congr 1
      ring
    | succ j =>
      have hj : j < as.length := Nat.lt_of_succ_lt_succ h
      have hj2 : j < (backPropagateList (-v) as).length := by
        rw [backPropagateList_length]; exact hj
      show (backPropagateList (-v) as).get ⟨j, hj2⟩
        = (as.get ⟨j, hj⟩).backPropagateValue ((-1) ^ (j + 1 + 1) * v)
      rw [ih (-v) j hj hj2]
      congr 1
      ring

theorem policyAdjust_length (n : Node) (as : List Node) :
    (policyAdjust n as).length = as.length := by
  cases as <;> rfl

theorem policyAdjust_get (n : Node) (as : List Node) (i : ℕ)
    (h : i < as.length) (h2 : i < (policyAdjust n as).length) :
    ((policyAdjust n as).get ⟨i, h2⟩).visited = (as.get ⟨i, h⟩).visited ∧
    ((policyAdjust n as).get ⟨i, h2⟩).qValue = (as.get ⟨i, h⟩).qValue := by
  cases as with
  | nil => exact absurd h (Nat.not_lt_zero i)
  | cons p rest =>
    cases i with
    | zero =>
      by_cases hv : n.visited = 0 <;> simp [policyAdjust, hv]
    | succ j => exact ⟨rfl, rfl⟩

/-- **C3.** `setQValueAndPropagate(n)` given `n.hasRawQValue`: increments
`n.visited`, clears `virtualLoss`, invalidates `uCoeff`, copies
`rawQValue` into `qValue`; if `n` has a parent and was unvisited, the
parent's `policySum` gains `n.pValue`; and every ancestor `a` at distance
`i+1` from `n` receives the sign-flipped value
`(-1)^(i+1) · n.rawQValue` into its running mean
`(a.visited · a.qValue + v) / (a.visited + 1)` and has its `visited`
incremented. -/
theorem setQValueAndPropagate_spec (n : Node) (as : List Node)
    (hraw : n.hasRawQValue) :
    (setQValueAndPropagate n as).1.visited = n.visited + 1 ∧
    (setQValueAndPropagate n as).1.virtualLoss = 0 ∧
    (setQValueAndPropagate n as).1.uCoeff = -2 ∧
    (setQValueAndPropagate n as).1.qValue = n.rawQValue ∧
    (setQValueAndPropagate n as).2.length = as.length ∧
    (as ≠ [] → n.visited = 0 →
      (setQValueAndPropagate n as).2.headI.policySum
        = as.headI.policySum + n.pValue) ∧
    (∀ i (h : i < as.length) (h2 : i < (setQValueAndPropagate n as).2.length),
      ((setQValueAndPropagate n as).2.get ⟨i, h2⟩).qValue
        = (((as.get ⟨i, h⟩).visited : ℚ) * (as.get ⟨i, h⟩).qValue
            + (-1) ^ (i + 1) * n.rawQValue) / (((as.get ⟨i, h⟩).visited : ℚ) + 1) ∧
      ((setQValueAndPropagate n as).2.get ⟨i, h2⟩).visited
        = (as.get ⟨i, h⟩).visited + 1) := by
  refine ⟨rfl, rfl, rfl, rfl, ?_, ?_, ?_⟩
  · show (backPropagateList _ (policyAdjust n as)).length = as.length
    rw [backPropagateList_length, policyAdjust_length]
  · intro hne hv
    cases as with
    | nil => exact absurd rfl hne
    | cons p rest =>
      show (Node.backPropagateValue (-(n.incrementVisited.setQValueFromRaw).qValue)
          (if n.visited = 0 then { p with policySum := p.policySum + n.pValue } else p)).policySum
        = p.policySum + n.pValue
      rw [if_pos hv]
      rfl
  · intro i h h2
    have h2' : i < (backPropagateList (n.incrementVisited.setQValueFromRaw).qValue
        (policyAdjust n as)).length := h2
    have hpa : i < (policyAdjust n as).length := by
      rw [policyAdjust_length]; exact h
    have hget := backPropagateList_get (n.incrementVisited.setQValueFromRaw).qValue
      (policyAdjust n as) i hpa h2'
    have hfields := policyAdjust_get n as i h hpa
    constructor
    · show ((backPropagateList (n.incrementVisited.setQValueFromRaw).qValue
          (policyAdjust n as)).get ⟨i, h2'⟩).qValue
        = (((as.get ⟨i, h⟩).visited : ℚ) * (as.get ⟨i, h⟩).qValue
            + (-1) ^ (i + 1) * n.rawQValue) / (((as.get ⟨i, h⟩).visited : ℚ) + 1)
      rw [hget]
      show ((((policyAdjust n as).get ⟨i, hpa⟩).visited : ℚ)
            * ((policyAdjust n as).get ⟨i, hpa⟩).qValue
            + (-1) ^ (i + 1) * n.rawQValue)
          / ((((policyAdjust n as).get ⟨i, hpa⟩).visited : ℚ) + 1)
        = (((as.get ⟨i, h⟩).visited : ℚ) * (as.get ⟨i, h⟩).qValue
            + (-1) ^ (i + 1) * n.rawQValue) / (((as.get ⟨i, h⟩).visited : ℚ) + 1)
      rw [hfields.1, hfields.2]
    · show ((backPropagateList (n.incrementVisited.setQValueFromRaw).qValue
          (policyAdjust n as)).get ⟨i, h2'⟩).visited
        = (as.get ⟨i, h⟩).visited + 1
      rw [hget]
      show ((policyAdjust n as).get ⟨i, hpa⟩).visited + 1
        = (as.get ⟨i, h⟩).visited + 1
      rw [hfields.1]

/-- Concrete input for the `setQValueAndPropagate` witness: a node with a
raw value and a prior, one ancestor. -/
def c3Node : Node :=
  { Node.init with rawQValue := 1/2, pValue := 1/4 }

theorem setQValueAndPropagate_spec_witness :
    c3Node.hasRawQValue ∧
    (setQValueAndPropagate c3Node [Node.init]).1.qValue = c3Node.rawQValue :=
  have h : c3Node.hasRawQValue := by
    show (1/2 : ℚ) ≠ -2
    norm_num
  ⟨h, (setQValueAndPropagate_spec c3Node [Node.init] h).2.2.2.1⟩

/-- Engine constants used by `Node::generatePotentials`.  `maxDepth` is
`MAX_DEPTH`, declared in `node.h` which is not part of the excerpt.
Modelled from the spec: it is the engine's positive search-depth cap
(§4.4 uses `MAX_DEPTH·ε` with `ε = 1e-4`).  `cpToScore1` stands for the
transcendental value `cpToScore(1) = atan(1/290.680623072)/1.548090806 ≈
0.0022224` computed by `cpToScore` (lines 34-38); theorems only use the
provable facts `0 < cpToScore1 < 1`, which hold both for the real-valued
expression and for its floating-point evaluation. -/
structure Consts where
  maxDepth : ℕ
  cpToScore1 : ℚ
deriving DecidableEq, Repr

/-- The external collaborators consulted by `Node::generatePotentials`
(§6 of the spec): the game snapshot's rule queries, the tablebase probe,
and the list of potentials produced by `m_game.pseudoLegalMoves(this)`
through the `generatePotential` callback (lines 595-606).  `depth` is the
node's ply distance from the root (`Node::depth()`, declared in
`node.h`). -/
structure GameEnv where
  halfMoveClock : ℕ
  isDeadPosition : Bool
  isThreeFold : Bool
  isRoot : Bool
  tbProbe : Probe
  legalMoves : List PotentialNode
  isChecked : Bool
  depth : ℕ
deriving DecidableEq, Repr

/-- `Node::generatePotentials` (lines 533-593): rule-based draws first
(50-move clock, dead position, threefold — in that order), then the
tablebase probe on non-root nodes, then move generation, with the
checkmate/stalemate override when no potential was produced. -/
def generatePotentials (c : Consts) (e : GameEnv) (n : Node) : Node :=
  if n.potentials ≠ [] then n
  else if 100 ≤ e.halfMoveClock then { n with rawQValue := 0, isExact := true }
  else if e.isDeadPosition then { n with rawQValue := 0, isExact := true }
  else if e.isThreeFold then { n with rawQValue := 0, isExact := true }
  else
    match (if e.isRoot then Probe.NotFound else e.tbProbe) with
    | Probe.Win => { n with rawQValue := 1 - c.cpToScore1, isExact := true, isTB := true }
    | Probe.Loss => { n with rawQValue := -1 + c.cpToScore1, isExact := true, isTB := true }
    | Probe.Draw => { n with rawQValue := 0, isExact := true, isTB := true }
    | Probe.NotFound =>
      let n1 := { n with potentials := e.legalMoves }
      if n1.potentials = [] then
        if e.isChecked then
          { n1 with checkMate := true,
                    rawQValue := 1 + (c.maxDepth : ℚ) * (1/10000) - (e.depth : ℚ) * (1/10000),
                    isExact := true }
        else
          { n1 with staleMate := true, rawQValue := 0, isExact := true }
      else n1

/-- Concrete constants for witnesses and counterexamples: `MAX_DEPTH`
taken as `127` (any positive value yields the same statuses below) and
`cpToScore(1)` as `1/450 ≈ 0.00222` (any value in `(0,1)` yields the
same statuses below). -/
def specConsts : Consts := { maxDepth := 127, cpToScore1 := 1/450 }

/-- **C7.** A halfmove clock of at least `100` (including exactly `100`)
makes `generatePotentials` set `rawQValue = 0` and `isExact` and return
at once: the result is independent of the tablebase probe and of the
generated moves, keeps `potentials` empty, and leaves every other field
(including `isTB`) unchanged.  Dead positions and threefold repetition
(checked in that order after the clock) produce the identical draw
result. -/
theorem generatePotentials_draw_short_circuit (c : Consts) (e : GameEnv)
    (n : Node) (hp : n.potentials = []) :
    (100 ≤ e.halfMoveClock →
      generatePotentials c e n = { n with rawQValue := 0, isExact := true } ∧
      (generatePotentials c e n).potentials = [] ∧
      (generatePotentials c e n).isTB = n.isTB ∧
      ∀ pr lm, generatePotentials c { e with tbProbe := pr, legalMoves := lm } n
        = generatePotentials c e n) ∧
    (e.halfMoveClock < 100 → e.isDeadPosition = true →
      generatePotentials c e n = { n with rawQValue := 0, isExact := true } ∧
      ∀ pr lm, generatePotentials c { e with tbProbe := pr, legalMoves := lm } n
        = generatePotentials c e n) ∧
    (e.halfMoveClock < 100 → e.isDeadPosition = false → e.isThreeFold = true →
      generatePotentials c e n = { n with rawQValue := 0, isExact := true } ∧
      ∀ pr lm, generatePotentials c { e with tbProbe := pr, legalMoves := lm } n
        = generatePotentials c e n) := by
  refine ⟨?_, ?_, ?_⟩
  · intro h100
    have he : generatePotentials c e n = { n with rawQValue := 0, isExact := true } := by
      unfold generatePotentials
      rw [if_neg (by simp [hp]), if_pos h100]
    refine ⟨he, by rw [he, hp], by rw [he], ?_⟩
    intro pr lm
    rw [he]
    unfold generatePotentials
    rw [if_neg (by simp [hp]), if_pos h100]
  · intro h100 hdead
    have he : generatePotentials c e n = { n with rawQValue := 0, isExact := true } := by
      unfold generatePotentials
      rw [if_neg (by simp [hp]), if_neg (by omega), if_pos hdead]
    refine ⟨he, ?_⟩
    intro pr lm
    rw [he]
    unfold generatePotentials
    rw [if_neg (by simp [hp]), if_neg (by simp; omega), if_pos hdead]
  · intro h100 hdead h3
    have he : generatePotentials c e n = { n with rawQValue := 0, isExact := true } := by
      unfold generatePotentials
      rw [if_neg (by simp [hp]), if_neg (by omega), if_neg (by simp [hdead]), if_pos h3]
    refine ⟨he, ?_⟩
    intro pr lm
    rw [he]
    unfold generatePotentials
    rw [if_neg (by simp [hp]), if_neg (by simp; omega), if_neg (by simp [hdead]), if_pos h3]

theorem generatePotentials_draw_short_circuit_witness :
    (Node.init.potentials = []) ∧
    ((100:ℕ) ≤ 100) ∧
    generatePotentials specConsts
      { halfMoveClock := 100, isDeadPosition := false, isThreeFold := false,
        isRoot := false, tbProbe := Probe.Win, legalMoves := [], isChecked := false,
        depth := 3 } Node.init
      = { Node.init with rawQValue := 0, isExact := true } :=
  ⟨rfl, le_refl 100,
    ((generatePotentials_draw_short_circuit specConsts
      { halfMoveClock := 100, isDeadPosition := false, isThreeFold := false,
        isRoot := false, tbProbe := Probe.Win, legalMoves := [], isChecked := false,
        depth := 3 } Node.init rfl).1 (le_refl 100)).1⟩

theorem generatePotentials_checkmate_eval (c : Consts) (e : GameEnv) (n : Node)
    (hp : n.potentials = []) (h100 : e.halfMoveClock < 100)
    (hdead : e.isDeadPosition = false) (h3 : e.isThreeFold = false)
    (htb : e.isRoot = true ∨ e.tbProbe = Probe.NotFound)
    (hmv : e.legalMoves = []) (hc : e.isChecked = true) :
    generatePotentials c e n
      = { n with potentials := [], checkMate := true,
                 rawQValue := 1 + (c.maxDepth : ℚ) * (1/10000) - (e.depth : ℚ) * (1/10000),
                 isExact := true } := by
  have hnf : (if e.isRoot then Probe.NotFound else e.tbProbe) = Probe.NotFound := by
    rcases htb with h | h
    · simp [h]
    · cases e.isRoot <;> simp [h]
  unfold generatePotentials
  rw [if_neg (by simp [hp]), if_neg (by omega), if_neg (by simp [hdead]),
    if_neg (by simp [h3]), hnf]
  simp only [hmv, hp, if_true]
  rw [if_pos hc]

theorem generatePotentials_stalemate_eval (c : Consts) (e : GameEnv) (n : Node)
    (hp : n.potentials = []) (h100 : e.halfMoveClock < 100)
    (hdead : e.isDeadPosition = false) (h3 : e.isThreeFold = false)
    (htb : e.isRoot = true ∨ e.tbProbe = Probe.NotFound)
    (hmv : e.legalMoves = []) (hc : e.isChecked = false) :
    generatePotentials c e n
      = { n with potentials := [], staleMate := true, rawQValue := 0, isExact := true } := by
  have hnf : (if e.isRoot then Probe.NotFound else e.tbProbe) = Probe.NotFound := by
    rcases htb with h | h
    · simp [h]
    · cases e.isRoot <;> simp [h]
  unfold generatePotentials
  rw [if_neg (by simp [hp]), if_neg (by omega), if_neg (by simp [hdead]),
    if_neg (by simp [h3]), hnf]
  simp only [hmv, hp, if_true]
  rw [if_neg (by simp [hc])]

/-- **C4.** When `generatePotentials` runs move generation at ply depth
`d` and no potential move is produced: in check it marks checkmate with
`rawQValue = 1 + (MAX_DEPTH − d)·1e-4` and `isExact`, and a shallower
checkmate has strictly higher `rawQValue`; not in check it marks
stalemate with `rawQValue = 0` and `isExact`. -/
theorem generatePotentials_terminal_override (c : Consts) (e : GameEnv) (n : Node)
    (hp : n.potentials = []) (h100 : e.halfMoveClock < 100)
    (hdead : e.isDeadPosition = false) (h3 : e.isThreeFold = false)
    (htb : e.isRoot = true ∨ e.tbProbe = Probe.NotFound)
    (hmv : e.legalMoves = []) :
    (e.isChecked = true →
      (generatePotentials c e n).checkMate = true ∧
      (generatePotentials c e n).rawQValue
        = 1 + ((c.maxDepth : ℚ) - (e.depth : ℚ)) * (1/10000) ∧
      (generatePotentials c e n).isExact = true ∧
      (generatePotentials c e n).potentials = []) ∧
    (e.isChecked = false →
      (generatePotentials c e n).staleMate = true ∧
      (generatePotentials c e n).rawQValue = 0 ∧
      (generatePotentials c e n).isExact = true ∧
      (generatePotentials c e n).potentials = []) ∧
    (∀ d1 d2 : ℕ, d1 < d2 → e.isChecked = true →
      (generatePotentials c { e with depth := d2 } n).rawQValue
        < (generatePotentials c { e with depth := d1 } n).rawQValue) := by
  refine ⟨?_, ?_, ?_⟩
  · intro hc
    rw [generatePotentials_checkmate_eval c e n hp h100 hdead h3 htb hmv hc]
    refine ⟨rfl, ?_, rfl, rfl⟩
    show 1 + (c.maxDepth : ℚ) * (1/10000) - (e.depth : ℚ) * (1/10000) = _
    ring
  · intro hc
    rw [generatePotentials_stalemate_eval c e n hp h100 hdead h3 htb hmv hc]
    exact ⟨rfl, rfl, rfl, rfl⟩
  · intro d1 d2 hd hc
    rw [generatePotentials_checkmate_eval c { e with depth := d2 } n hp h100 hdead h3 htb hmv hc,
      generatePotentials_checkmate_eval c { e with depth := d1 } n hp h100 hdead h3 htb hmv hc]
    show 1 + (c.maxDepth : ℚ) * (1/10000) - ((d2 : ℚ)) * (1/10000)
      < 1 + (c.maxDepth : ℚ) * (1/10000) - ((d1 : ℚ)) * (1/10000)
    have hq : (d1 : ℚ) < (d2 : ℚ) := by exact_mod_cast hd
    linarith

/-- Environment of the terminal-override witness: a checkmated non-root
position at ply 5, no draw rule applies, tablebase miss, no legal
moves. -/
def c4Env : GameEnv :=
  { halfMoveClock := 7, isDeadPosition := false, isThreeFold := false,
    isRoot := false, tbProbe := Probe.NotFound, legalMoves := [],
    isChecked := true, depth := 5 }

theorem generatePotentials_terminal_override_witness :
    (Node.init.potentials = [] ∧ c4Env.halfMoveClock < 100 ∧
      c4Env.isDeadPosition = false ∧ c4Env.isThreeFold = false ∧
      (c4Env.isRoot = true ∨ c4Env.tbProbe = Probe.NotFound) ∧
      c4Env.legalMoves = [] ∧ c4Env.isChecked = true) ∧
    (generatePotentials specConsts c4Env Node.init).checkMate = true :=
  ⟨⟨rfl, by decide, rfl, rfl, Or.inr rfl, rfl, rfl⟩,
    ((generatePotentials_terminal_override specConsts c4Env Node.init rfl
      (by decide) rfl rfl (Or.inr rfl) rfl).1 rfl).1⟩

theorem generatePotentials_tb_eval (c : Consts) (e : GameEnv) (n : Node)
    (hp : n.potentials = []) (h100 : e.halfMoveClock < 100)
    (hdead : e.isDeadPosition = false) (h3 : e.isThreeFold = false)
    (hroot : e.isRoot = false) :
    (e.tbProbe = Probe.Win →
      generatePotentials c e n
        = { n with rawQValue := 1 - c.cpToScore1, isExact := true, isTB := true }) ∧
    (e.tbProbe = Probe.Loss →
      generatePotentials c e n
        = { n with rawQValue := -1 + c.cpToScore1, isExact := true, isTB := true }) ∧
    (e.tbProbe = Probe.Draw →
      generatePotentials c e n
        = { n with rawQValue := 0, isExact := true, isTB := true }) := by
  refine ⟨?_, ?_, ?_⟩ <;>
    (intro hw
     unfold generatePotentials
     rw [if_neg (by simp [hp]), if_neg (by omega), if_neg (by simp [hdead]),
       if_neg (by simp [h3])]
     simp only [hroot, if_false, hw]
     rfl)

/-- **C5.** On a non-root node with no rules draw, a tablebase `Win`
yields `rawQValue = 1 − cpToScore(1)` with `isExact` and `isTB` set
(`Loss` gives `−1 + cpToScore(1)`, `Draw` gives `0`), and since
`cpToScore(1) > 0` this win value is strictly below the checkmate
`rawQValue` produced by `generatePotentials` at every ply depth up to
`MAX_DEPTH`, so a checkmate is preferred over a tablebase win. -/
theorem tb_win_below_checkmate (c : Consts) (e : GameEnv) (n : Node)
    (hp : n.potentials = []) (h100 : e.halfMoveClock < 100)
    (hdead : e.isDeadPosition = false) (h3 : e.isThreeFold = false)
    (hroot : e.isRoot = false) (hc1 : 0 < c.cpToScore1) :
    (e.tbProbe = Probe.Win →
      (generatePotentials c e n).rawQValue = 1 - c.cpToScore1 ∧
      (generatePotentials c e n).isExact = true ∧
      (generatePotentials c e n).isTB = true) ∧
    (e.tbProbe = Probe.Loss →
      (generatePotentials c e n).rawQValue = -1 + c.cpToScore1 ∧
      (generatePotentials c e n).isExact = true ∧
      (generatePotentials c e n).isTB = true) ∧
    (e.tbProbe = Probe.Draw →
      (generatePotentials c e n).rawQValue = 0 ∧
      (generatePotentials c e n).isExact = true ∧
      (generatePotentials c e n).isTB = true) ∧
    (∀ e' : GameEnv, e'.halfMoveClock < 100 → e'.isDeadPosition = false →
      e'.isThreeFold = false → (e'.isRoot = true ∨ e'.tbProbe = Probe.NotFound) →
      e'.legalMoves = [] → e'.isChecked = true → e'.depth ≤ c.maxDepth →
      e.tbProbe = Probe.Win →
      (generatePotentials c e n).rawQValue < (generatePotentials c e' n).rawQValue) := by
  obtain ⟨hwin, hloss, hdraw⟩ := generatePotentials_tb_eval c e n hp h100 hdead h3 hroot
  refine ⟨?_, ?_, ?_, ?_⟩
  · intro hw
    rw [hwin hw]
    exact ⟨rfl, rfl, rfl⟩
  · intro hw
    rw [hloss hw]
    exact ⟨rfl, rfl, rfl⟩
  · intro hw
    rw [hdraw hw]
    exact ⟨rfl, rfl, rfl⟩
  · intro e' h100' hdead' h3' htb' hmv' hc' hd' hw
    rw [hwin hw,
      generatePotentials_checkmate_eval c e' n hp h100' hdead' h3' htb' hmv' hc']
    show 1 - c.cpToScore1
      < 1 + (c.maxDepth : ℚ) * (1/10000) - (e'.depth : ℚ) * (1/10000)
    have hq : (e'.depth : ℚ) ≤ (c.maxDepth : ℚ) := by exact_mod_cast hd'
    nlinarith

/-- Environment of the tablebase witness: a non-root position with a
tablebase win and no rules draw. -/
def c5Env : GameEnv :=
  { halfMoveClock := 0, isDeadPosition := false, isThreeFold := false,
    isRoot := false, tbProbe := Probe.Win, legalMoves := [], isChecked := false,
    depth := 2 }

theorem tb_win_below_checkmate_witness :
    (Node.init.potentials = [] ∧ c5Env.halfMoveClock < 100 ∧
      c5Env.isDeadPosition = false ∧ c5Env.isThreeFold = false ∧
      c5Env.isRoot = false ∧ 0 < specConsts.cpToScore1) ∧
    (generatePotentials specConsts c5Env Node.init).rawQValue
      = 1 - specConsts.cpToScore1 :=
  ⟨⟨rfl, by decide, rfl, rfl, rfl, by norm_num [specConsts]⟩,
    ((tb_win_below_checkmate specConsts c5Env Node.init rfl (by decide) rfl rfl rfl
      (by norm_num [specConsts])).1 rfl).1⟩

theorem mean_abs_bound (B q v : ℚ) (k : ℕ) (hq : |q| ≤ B) (hv : |v| ≤ B) :
    |((k : ℚ) * q + v) / ((k : ℚ) + 1)| ≤ B := by
  have hk : (0:ℚ) ≤ (k:ℚ) := Nat.cast_nonneg k
  have hpos : (0:ℚ) < (k:ℚ) + 1 := by linarith
  rw [abs_div, abs_of_pos hpos, div_le_iff₀ hpos]
  calc |(k:ℚ) * q + v| ≤ |(k:ℚ) * q| + |v| := abs_add _ _
    _ = (k:ℚ) * |q| + |v| := by rw [abs_mul, abs_of_nonneg hk]
    _ ≤ (k:ℚ) * B + B := add_le_add (mul_le_mul_of_nonneg_left hq hk) hv
    _ = B * ((k:ℚ) + 1) := by ring

theorem backPropagateList_qValue_bound (B v : ℚ) (as : List Node)
    (hv : |v| ≤ B) (has : ∀ a ∈ as, |a.qValue| ≤ B) :
    ∀ a ∈ backPropagateList v as, |a.qValue| ≤ B := by
  induction as generalizing v with
  | nil => intro a ha; cases ha
  | cons x xs ih =>
    intro a ha
    have hnv : |(-v)| ≤ B := by rw [abs_neg]; exact hv
    rcases List.mem_cons.mp ha with rfl | h
    · show |((x.visited : ℚ) * x.qValue + (-v)) / ((x.visited : ℚ) + 1)| ≤ B
      exact mean_abs_bound B x.qValue (-v) x.visited
        (has x (List.mem_cons_self x xs)) hnv
    · exact ih (-v) hnv (fun b hb => has b (List.mem_cons_of_mem x hb)) a h

theorem policyAdjust_mem_qValue (n : Node) (as : List Node) (a : Node)
    (ha : a ∈ policyAdjust n as) : ∃ b ∈ as, a.qValue = b.qValue := by
  cases as with
  | nil => cases ha
  | cons p rest =>
    rcases List.mem_cons.mp ha with rfl | h
    · refine ⟨p, List.mem_cons_self p rest, ?_⟩
      split <;> rfl
    · exact ⟨a, List.mem_cons_of_mem p h, rfl⟩

theorem generatePotentials_rawQValue_cases (c : Consts) (e : GameEnv) (n : Node) :
    (generatePotentials c e n).rawQValue = n.rawQValue ∨
    (generatePotentials c e n).rawQValue = 0 ∨
    (generatePotentials c e n).rawQValue = 1 - c.cpToScore1 ∨
    (generatePotentials c e n).rawQValue = -1 + c.cpToScore1 ∨
    (generatePotentials c e n).rawQValue
      = 1 + (c.maxDepth : ℚ) * (1/10000) - (e.depth : ℚ) * (1/10000) := by
  rcases e with ⟨hmc, dead, three, root, probe, moves, chk, dpt⟩
  cases root <;> cases probe <;>
    simp only [generatePotentials] <;> split_ifs <;>
    first
      | contradiction
      | exact Or.inl rfl
      | exact Or.inr (Or.inl rfl)
      | exact Or.inr (Or.inr (Or.inl rfl))
      | exact Or.inr (Or.inr (Or.inr (Or.inl rfl)))
      | exact Or.inr (Or.inr (Or.inr (Or.inr rfl)))

/-- The checkmate environment used by the C2 counterexample: a root
position in checkmate (in check with no legal move), halfmove clock 0,
ply depth 0. -/
def c2Env : GameEnv :=
  { halfMoveClock := 0, isDeadPosition := false, isThreeFold := false,
    isRoot := true, tbProbe := Probe.NotFound, legalMoves := [],
    isChecked := true, depth := 0 }

/-- The node state after `generatePotentials` on the checkmate
position. -/
def c2Mate : Node := generatePotentials specConsts c2Env Node.init

theorem c2Mate_rawQValue : c2Mate.rawQValue = 1 + (127:ℚ) * (1/10000) := by
  have h := generatePotentials_checkmate_eval specConsts c2Env Node.init rfl
    (by decide) rfl rfl (Or.inl rfl) rfl rfl
  rw [show c2Mate = generatePotentials specConsts c2Env Node.init from rfl, h]
  show 1 + ((specConsts.maxDepth : ℕ) : ℚ) * (1/10000)
      - ((c2Env.depth : ℕ) : ℚ) * (1/10000) = 1 + (127:ℚ) * (1/10000)
  norm_num [specConsts, c2Env]

/-- **C2 (counterexample).** The claim `qValue ∈ [−1, 1]` once
`hasQValue` fails on the code: a checkmate node receives
`rawQValue = 1 + (MAX_DEPTH − depth)·1e-4 > 1` from `generatePotentials`
(line 583), and `setQValueAndPropagate` copies it into `qValue`, so the
node has a Q value (`1.0127` here, with `MAX_DEPTH = 127` and depth 0)
strictly greater than `1`. -/
theorem checkmate_qValue_exceeds_one :
    (setQValueAndPropagate c2Mate []).1.hasQValue ∧
    1 < (setQValueAndPropagate c2Mate []).1.qValue := by
  constructor
  · show c2Mate.rawQValue ≠ -2
    rw [c2Mate_rawQValue]
    norm_num
  · show (1:ℚ) < c2Mate.rawQValue
    rw [c2Mate_rawQValue]
    norm_num

/-- **C2 (amended).** Once a node has a Q value it lies in the closed
interval `[−B, B]` with `B = 1 + MAX_DEPTH·1e-4` — not `[−1, 1]`, since
checkmate scores exceed `1` by design — and this is preserved by every
back-propagation: every raw value `generatePotentials` assigns is within
`[−B, B]` (first conjunct), and `setQValueAndPropagate` keeps the node
and all its ancestors within `[−B, B]` whenever the incoming raw value
and the ancestors' Q values are (second conjunct). -/
theorem qValue_bounded_after_propagation (c : Consts) (e : GameEnv) (B : ℚ)
    (n : Node) (as : List Node)
    (hB : B = 1 + (c.maxDepth : ℚ) * (1/10000))
    (hc1 : 0 < c.cpToScore1) (hc2 : c.cpToScore1 < 1)
    (hd : e.depth ≤ c.maxDepth) :
    ((generatePotentials c e n).rawQValue = n.rawQValue ∨
      |(generatePotentials c e n).rawQValue| ≤ B) ∧
    (|n.rawQValue| ≤ B → (∀ a ∈ as, |a.qValue| ≤ B) →
      |(setQValueAndPropagate n as).1.qValue| ≤ B ∧
      ∀ a ∈ (setQValueAndPropagate n as).2, |a.qValue| ≤ B) := by
  have hM : (0:ℚ) ≤ (c.maxDepth : ℚ) := Nat.cast_nonneg _
  have hMe : (0:ℚ) ≤ (c.maxDepth : ℚ) * (1/10000) := by positivity
  have hD0 : (0:ℚ) ≤ (e.depth : ℚ) := Nat.cast_nonneg _
  have hDe : (e.depth : ℚ) * (1/10000) ≤ (c.maxDepth : ℚ) * (1/10000) := by
    have hD : (e.depth : ℚ) ≤ (c.maxDepth : ℚ) := by exact_mod_cast hd
    linarith
  have hDe0 : (0:ℚ) ≤ (e.depth : ℚ) * (1/10000) := by positivity
  constructor
  · rcases generatePotentials_rawQValue_cases c e n with h | h | h | h | h
    · exact Or.inl h
    · right
      rw [h, abs_zero, hB]
      linarith
    · right
      rw [h, abs_of_nonneg (by linarith), hB]
      linarith
    · right
      rw [h, abs_of_nonpos (by linarith), hB]
      linarith
    · right
      rw [h, abs_of_nonneg (by linarith), hB]
      linarith
  · intro hraw has
    constructor
    · show |n.rawQValue| ≤ B
      exact hraw
    · refine backPropagateList_qValue_bound B _ (policyAdjust n as) ?_ ?_
      · show |n.rawQValue| ≤ B
        exact hraw
      · intro a ha
        obtain ⟨b, hb, he⟩ := policyAdjust_mem_qValue n as a ha
        rw [he]
        exact has b hb

theorem qValue_bounded_after_propagation_witness :
    ((1 + (127:ℚ) * (1/10000) = 1 + ((specConsts.maxDepth : ℕ) : ℚ) * (1/10000)) ∧
      0 < specConsts.cpToScore1 ∧ specConsts.cpToScore1 < 1 ∧
      c2Env.depth ≤ specConsts.maxDepth) ∧
    ((generatePotentials specConsts c2Env Node.init).rawQValue = Node.init.rawQValue ∨
      |(generatePotentials specConsts c2Env Node.init).rawQValue|
        ≤ 1 + (127:ℚ) * (1/10000)) :=
  ⟨⟨by norm_num [specConsts], by norm_num [specConsts], by norm_num [specConsts],
      by decide⟩,
    (qValue_bounded_after_propagation specConsts c2Env (1 + (127:ℚ) * (1/10000))
      Node.init [] (by norm_num [specConsts]) (by norm_num [specConsts])
      (by norm_num [specConsts]) (by decide)).1⟩

/-- One full leaf-to-root propagation round: `setQValueAndPropagate` on
the leaf together with its ancestor chain.  Iterating it models repeated
playouts that terminate at the same (exact) leaf. -/
def propagateStep (p : Node × List Node) : Node × List Node :=
  setQValueAndPropagate p.1 p.2

theorem policyAdjustHead_qValue (n h : Node) :
    (if n.visited = 0 then { h with policySum := h.policySum + n.pValue } else h).qValue
      = h.qValue := by
  split <;> rfl

theorem policyAdjustHead_visited (n h : Node) :
    (if n.visited = 0 then { h with policySum := h.policySum + n.pValue } else h).visited
      = h.visited := by
  split <;> rfl

theorem backPropagateValue_qValue (x : Node) (v : ℚ) :
    (x.backPropagateValue v).qValue
      = ((x.visited : ℚ) * x.qValue + v) / ((x.visited : ℚ) + 1) := rfl

theorem backPropagateValue_visited (x : Node) (v : ℚ) :
    (x.backPropagateValue v).visited = x.visited + 1 := rfl

theorem propagateStep_iterate_fields (n a : Node) (rest : List Node) (k : ℕ) :
    (propagateStep^[k+1] (n, a :: rest)).1.qValue = n.rawQValue ∧
    (propagateStep^[k+1] (n, a :: rest)).1.rawQValue = n.rawQValue ∧
    (propagateStep^[k+1] (n, a :: rest)).1.isExact = n.isExact ∧
    (propagateStep^[k+1] (n, a :: rest)).1.visited = n.visited + (k+1) ∧
    ∃ h rest', (propagateStep^[k+1] (n, a :: rest)).2 = h :: rest' ∧
      h.qValue = ((a.visited : ℚ) * a.qValue - ((k:ℚ)+1) * n.rawQValue)
        / ((a.visited : ℚ) + ((k:ℚ)+1)) ∧
      h.visited = a.visited + (k+1) := by
  induction k with
  | zero =>
    simp only [zero_add, Function.iterate_one]
    refine ⟨rfl, rfl, rfl, rfl, ?_⟩
    refine ⟨(if n.visited = 0 then { a with policySum := a.policySum + n.pValue } else a).backPropagateValue
        (-(n.incrementVisited.setQValueFromRaw).qValue),
      backPropagateList (-(n.incrementVisited.setQValueFromRaw).qValue) rest, rfl, ?_, ?_⟩
    · rw [backPropagateValue_qValue, policyAdjustHead_qValue, policyAdjustHead_visited]
      show ((a.visited : ℚ) * a.qValue + -n.rawQValue) / ((a.visited : ℚ) + 1)
        = ((a.visited : ℚ) * a.qValue - ((0:ℚ)+1) * n.rawQValue) / ((a.visited : ℚ) + ((0:ℚ)+1))
      norm_num
      ring_nf
    · show (if n.visited = 0 then { a with policySum := a.policySum + n.pValue } else a).visited + 1
        = a.visited + (0+1)
      rw [policyAdjustHead_visited]
  | succ k ih =>
    obtain ⟨hq, hr, hx, hv, h, rest', hl, hhq, hhv⟩ := ih
    rw [Function.iterate_succ_apply']
    refine ⟨?_, ?_, ?_, ?_, ?_⟩
    · show (propagateStep^[k+1] (n, a :: rest)).1.rawQValue = n.rawQValue
      exact hr
    · exact hr
    · exact hx
    · show (propagateStep^[k+1] (n, a :: rest)).1.visited + 1 = n.visited + (k+1+1)
      rw [hv]
      omega
    · have hlist : (propagateStep (propagateStep^[k+1] (n, a :: rest))).2
          = ((if (propagateStep^[k+1] (n, a :: rest)).1.visited = 0 then
                { h with policySum := h.policySum + (propagateStep^[k+1] (n, a :: rest)).1.pValue }
              else h).backPropagateValue
              (-((propagateStep^[k+1] (n, a :: rest)).1.incrementVisited.setQValueFromRaw).qValue))
            :: backPropagateList
              (-((propagateStep^[k+1] (n, a :: rest)).1.incrementVisited.setQValueFromRaw).qValue)
              rest' := by
        show (setQValueAndPropagate (propagateStep^[k+1] (n, a :: rest)).1
            (propagateStep^[k+1] (n, a :: rest)).2).2 = _
        rw [hl]
        rfl
      refine ⟨_, _, hlist, ?_, ?_⟩
      · rw [backPropagateValue_qValue, policyAdjustHead_qValue, policyAdjustHead_visited]
        have hval : (-(((propagateStep^[k+1] (n, a :: rest)).1.incrementVisited.setQValueFromRaw).qValue))
            = -n.rawQValue := by
          show -((propagateStep^[k+1] (n, a :: rest)).1.rawQValue) = -n.rawQValue
          rw [hr]
        rw [hval, hhq, hhv]
        have hA : (0:ℚ) ≤ (a.visited : ℚ) := Nat.cast_nonneg _
        have hk : (0:ℚ) ≤ (k:ℚ) := Nat.cast_nonneg _
        have hpos : (a.visited : ℚ) + ((k:ℚ)+1) ≠ 0 := by positivity
        push_cast
        have hpos2 : (a.visited : ℚ) + (k:ℚ) + 1 + 1 ≠ 0 := by positivity
        field_simp
        ring
      · rw [backPropagateValue_visited, policyAdjustHead_visited, hhv]
        omega
/-- **C6.** For an exact node, every `setQValueAndPropagate` copies
`rawQValue` into `qValue` rather than averaging: after any number `k+1`
of propagation rounds the node satisfies `qValue = rawQValue`, with
`rawQValue` unchanged and `isExact` still set, while each round still
feeds the (sign-flipped) exact value into every ancestor's running mean —
after `k+1` rounds the parent holds the mean
`(a.visited·a.qValue − (k+1)·rawQValue) / (a.visited + (k+1))` and its
visit count has grown by `k+1`. -/
theorem exact_node_keeps_raw_qValue (n a : Node) (rest : List Node) (k : ℕ)
    (hx : n.isExact = true) (hraw : n.hasRawQValue) :
    (propagateStep^[k+1] (n, a :: rest)).1.qValue
      = (propagateStep^[k+1] (n, a :: rest)).1.rawQValue ∧
    (propagateStep^[k+1] (n, a :: rest)).1.rawQValue = n.rawQValue ∧
    (propagateStep^[k+1] (n, a :: rest)).1.isExact = true ∧
    (propagateStep^[k+1] (n, a :: rest)).1.visited = n.visited + (k+1) ∧
    (propagateStep^[k+1] (n, a :: rest)).2.headI.qValue
      = ((a.visited : ℚ) * a.qValue - ((k:ℚ)+1) * n.rawQValue)
        / ((a.visited : ℚ) + ((k:ℚ)+1)) ∧
    (propagateStep^[k+1] (n, a :: rest)).2.headI.visited = a.visited + (k+1) := by
  obtain ⟨hq, hr, hxx, hv, h, rest', hl, hhq, hhv⟩ :=
    propagateStep_iterate_fields n a rest k
  refine ⟨by rw [hq, hr], hr, by rw [hxx, hx], hv, ?_, ?_⟩
  · rw [hl]
    exact hhq
  · rw [hl]
    exact hhv

/-- Concrete exact node for the C6 witness: a tablebase-style exact value
`1/3` on an otherwise fresh node. -/
def c6Node : Node := { Node.init with isExact := true, rawQValue := 1/3 }

theorem exact_node_keeps_raw_qValue_witness :
    (c6Node.isExact = true ∧ c6Node.hasRawQValue) ∧
    (propagateStep^[2+1] (c6Node, Node.init :: [])).1.qValue
      = (propagateStep^[2+1] (c6Node, Node.init :: [])).1.rawQValue :=
  have h : c6Node.hasRawQValue := by
    show (1/3 : ℚ) ≠ -2
    norm_num
  ⟨⟨rfl, h⟩, (exact_node_keeps_raw_qValue c6Node Node.init [] 2 rfl h).1⟩

/-- The tree structure around the nodes, as an arena keyed by node ids:
the non-owning `m_parent` back-pointers, the per-node `m_children`
sequences, and the per-node state.  `Node::setAsRootNode` and
`Node::rootNode` act on this structure. -/
structure Tree where
  parent : ℕ → Option ℕ
  children : ℕ → List ℕ
  data : ℕ → Node

/-- `Node::setAsRootNode` (lines 103-114): remove the node from its
parent's `children` at the index found by `indexOf` (the first
occurrence), then clear the parent back-pointer. -/
def Tree.setAsRootNode (t : Tree) (c : ℕ) : Tree :=
  let t1 : Tree :=
    match t.parent c with
    | none => t
    | some p =>
      { t with children := fun x => if x = p then (t.children p).erase c else t.children x }
  { t1 with parent := fun x => if x = c then none else t1.parent x }

/-- `Node::rootNode` (lines 89-101): follow parent pointers until a node
with no parent is reached.  The fuel argument bounds the recursion (the
C++ recursion terminates because parent chains are finite and acyclic);
on any chain shorter than the fuel the result is fuel-independent. -/
def Tree.rootNode (t : Tree) : ℕ → ℕ → ℕ
  | 0, x => x
  | fuel+1, x =>
    match t.parent x with
    | none => x
    | some p => t.rootNode fuel p

/-- The `k`-fold parent of a node, when the whole chain exists: expresses
"being a descendant" for the `rootNode` claim. -/
def Tree.ancestorAt (t : Tree) : ℕ → ℕ → Option ℕ
  | 0, x => some x
  | k+1, x =>
    match t.parent x with
    | none => none
    | some p => t.ancestorAt k p

theorem rootNode_of_parent_none (t : Tree) (c : ℕ) (hc : t.parent c = none) :
    ∀ fuel, t.rootNode fuel c = c := by
  intro fuel
  cases fuel with
  | zero => rfl
  | succ f =>
    show (match t.parent c with
      | none => c
      | some p => t.rootNode f p) = c
    rw [hc]

theorem rootNode_of_chain (t : Tree) (c : ℕ) (hc : t.parent c = none) :
    ∀ k d fuel, t.ancestorAt k d = some c → k < fuel → t.rootNode fuel d = c := by
  intro k
  induction k with
  | zero =>
    intro d fuel ha hf
    have hd : d = c := by
      have : some d = some c := ha
      exact Option.some.inj this
    subst hd
    exact rootNode_of_parent_none t d hc fuel
  | succ j ih =>
    intro d fuel ha hf
    cases fuel with
    | zero => exact absurd hf (Nat.not_lt_zero _)
    | succ f =>
      show (match t.parent d with
        | none => d
        | some p => t.rootNode f p) = c
      cases hp : t.parent d with
      | none =>
        exfalso
        have : t.ancestorAt (j+1) d = none := by
          show (match t.parent d with
            | none => none
            | some p => t.ancestorAt j p) = none
          rw [hp]
        rw [this] at ha
        exact Option.noConfusion ha
      | some p =>
        have ha' : t.ancestorAt j p = some c := by
          have : t.ancestorAt (j+1) d
              = (match t.parent d with
                | none => none
                | some q => t.ancestorAt j q) := rfl
          rw [this, hp] at ha
          exact ha
        exact ih p f ha' (Nat.lt_of_succ_lt_succ hf)

/-- **C8.** `setAsRootNode` on a node `c` with parent `p` clears `c`'s
parent pointer and removes `c` from `p`'s children (which hold `c` at
most once), so `rootNode` from `c` — and from any descendant whose
ancestor chain reaches `c` — returns `c`; every other node's parent
pointer, every other node's children sequence, and all per-node state
are unchanged, with `p`'s children losing exactly the first occurrence
of `c`. -/
theorem setAsRootNode_spec (t : Tree) (c p : ℕ)
    (hc : t.parent c = some p) (hcount : (t.children p).count c ≤ 1) :
    (t.setAsRootNode c).parent c = none ∧
    c ∉ (t.setAsRootNode c).children p ∧
    (∀ fuel, (t.setAsRootNode c).rootNode fuel c = c) ∧
    (∀ k d fuel, (t.setAsRootNode c).ancestorAt k d = some c → k < fuel →
      (t.setAsRootNode c).rootNode fuel d = c) ∧
    (∀ x, x ≠ c → (t.setAsRootNode c).parent x = t.parent x) ∧
    (∀ x, x ≠ p → (t.setAsRootNode c).children x = t.children x) ∧
    (t.setAsRootNode c).children p = (t.children p).erase c ∧
    (∀ x, (t.setAsRootNode c).data x = t.data x) := by
  have hpar : (t.setAsRootNode c).parent = fun x => if x = c then none else t.parent x := by
    unfold Tree.setAsRootNode
    rw [hc]
  have hch : (t.setAsRootNode c).children
      = fun x => if x = p then (t.children p).erase c else t.children x := by
    unfold Tree.setAsRootNode
    rw [hc]
  have h1 : (t.setAsRootNode c).parent c = none := by
    rw [hpar]
    simp
  refine ⟨h1, ?_, rootNode_of_parent_none _ c h1, rootNode_of_chain _ c h1, ?_, ?_, ?_, ?_⟩
  · rw [hch]
    show c ∉ (if p = p then (t.children p).erase c else t.children p)
    rw [if_pos rfl]
    intro hmem
    have hpos := List.count_pos_iff.mpr hmem
    rw [List.count_erase_self] at hpos
    omega
  · intro x hx
    rw [hpar]
    simp [hx]
  · intro x hx
    rw [hch]
    simp [hx]
  · rw [hch]
    simp
  · intro x
    unfold Tree.setAsRootNode
    rw [hc]

/-- The two-node tree of the `setAsRootNode` witness: node `0` is the
root, node `1` its only child. -/
def c8Tree : Tree :=
  { parent := fun x => if x = 1 then some 0 else none
    children := fun x => if x = 0 then [1] else []
    data := fun _ => Node.init }

theorem setAsRootNode_spec_witness :
    (c8Tree.parent 1 = some 0 ∧ (c8Tree.children 0).count 1 ≤ 1) ∧
    (c8Tree.setAsRootNode 1).parent 1 = none :=
  ⟨⟨rfl, by decide⟩, (setAsRootNode_spec c8Tree 1 0 rfl (by decide)).1⟩

/-- A node together with its materialized subtree, for the recursive
`Node::principalVariation`. -/
inductive NTree where
  | mk (node : Node) (children : List NTree)

/-- The node at the root of a subtree. -/
def NTree.node : NTree → Node
  | .mk n _ => n

/-- The children subtrees. -/
def NTree.children : NTree → List NTree
  | .mk _ cs => cs

/-- Whether candidate `x` beats the current best under `sortByScore`.
Modelled from the spec: `sortByScore` is declared in `node.h` (not in the
excerpt); §4.9 specifies sort by visit count descending with Q value as
tiebreak, ties broken by insertion order, and `principalVariation` only
consumes the first element of the sorted sequence. -/
def scoreBeats (x best : NTree) : Bool :=
  decide (best.node.visited < x.node.visited ∨
    (x.node.visited = best.node.visited ∧ best.node.qValue < x.node.qValue))

/-- First element of `sortByScore(children, partialSortFirstOnly=true)`:
the maximum under `scoreBeats`, keeping the earlier element on ties. -/
def bestChild (c : NTree) (cs : List NTree) : NTree :=
  cs.foldl (fun best x => if scoreBeats x best then x else best) c

/-- `Node::principalVariation(depth)` (lines 116-134) on a subtree.  The
C++ mutates an `int *depth`; here the counter is threaded as state and
returned.  `isRoot` tells whether the current node is the root node
(`m_parent == nullptr`); recursive calls are on children, which are never
the root.  The fuel bounds the recursion (the C++ recursion terminates
because the tree is finite); fuel exhaustion yields the empty string,
which no execution on a tree of height below the fuel reaches. -/
def principalVariation : ℕ → Bool → NTree → ℕ → String × ℕ
  | 0, _, _, depth => ("", depth)
  | fuel+1, isRoot, t, depth =>
    if isRoot = false ∧ ¬ t.node.hasPValue then ("", depth)
    else
      let d1 := depth + 1
      match t.children with
      | [] => (t.node.lastMove, d1)
      | c :: cs =>
        let best := bestChild c cs
        if isRoot then principalVariation fuel false best d1
        else
          let r := principalVariation fuel false best d1
          (t.node.lastMove ++ " " ++ r.1, r.2)

/-- **C10.** On a non-root node whose prior was never assigned (`pValue`
still at the `-2` sentinel), `principalVariation` returns the empty
string and leaves the caller's depth counter unchanged, for every
subtree, starting depth and recursion fuel — it does not emit the node's
move. -/
theorem principalVariation_no_pValue (fuel : ℕ) (t : NTree) (d : ℕ)
    (hp : t.node.pValue = -2) :
    principalVariation fuel false t d = ("", d) := by
  cases fuel with
  | zero => rfl
  | succ f =>
    show (if false = false ∧ ¬ t.node.hasPValue then ("", d) else _) = ("", d)
    rw [if_pos]
    exact ⟨rfl, fun hne => hne hp⟩

theorem principalVariation_no_pValue_witness :
    ((NTree.mk Node.init []).node.pValue = -2) ∧
    principalVariation 3 false (NTree.mk Node.init []) 5 = ("", 5) :=
  ⟨rfl, principalVariation_no_pValue 3 (NTree.mk Node.init []) 5 rfl⟩

end Allie
